import Mathlib

/-!
Shallow embedding of the core of `SimEngine_v4.py` (Emergent Alliance
simulation engine): the `LeonTradeModel` class, the forcing-spec
constructors `shock_impulse` / `recovery_impulse`, the propagation
right-hand sides `economic_dynamics_ode` / `economic_dynamics_ode_rec`,
the quadrature `simps` (scipy composite Simpson, `even='avg'`), and the
loss aggregation `total_out_loss`.  Python dicts are modelled as
insertion-ordered association lists, machine floats as rationals, and
fallible calls return `Except`.
-/

namespace SimEngine

/-- A forcing triple `(t0, t1, val)`: a forcing of magnitude `val`
persists between times `t0` and `t1`. -/
abbrev Triple : Type := ℚ × ℚ × ℚ

/-- A Python dict keyed by sector label, modelled as an insertion-ordered
association list. -/
abbrev Dict (β : Type) : Type := List (String × β)

/-- Python `d[k] = v`: replace the value at key `k` in place when the key
is present, otherwise append the pair at the end. -/
def dictInsert {β : Type} (d : Dict β) (k : String) (v : β) : Dict β :=
  if d.any (fun p => decide (p.1 = k)) then
    d.map (fun p => if p.1 = k then (k, v) else p)
  else d ++ [(k, v)]

/-- Python `d[k]` as a total lookup: the value at the first matching key. -/
def dictGet? {β : Type} (d : Dict β) (k : String) : Option β :=
  (d.find? (fun p => decide (p.1 = k))).map Prod.snd

/-- Runtime errors a modelled Python call can raise. -/
inductive PyErr : Type
  | typeError
deriving DecidableEq

/-- UI-side economy-wide shock list (`general_shock_list` in the app):
`[start_general, end_general, general_shock/100]` — months as given, the
percent magnitude divided by 100. -/
def general_shock_list (start_general end_general general_shock : ℚ) : Triple :=
  (start_general, end_general, general_shock / 100)

/-- UI-side per-sector shock entry (the `sectors_n_shocks` dict values):
`(start/12, end/12, val/100)` — month offsets divided by 12, the percent
magnitude divided by 100. -/
def sectors_n_shocks_entry (start_sector end_sector shock_val : ℚ) : Triple :=
  (start_sector / 12, end_sector / 12, shock_val / 100)

/-- Embedding of `LeonTradeModel.shock_impulse`: build the full default map (each
sector gets the general-shock triple with its first two components
divided by 12), then overlay the explicit per-sector entries.  Iterating
`sectors_n_shocks=None` raises a `TypeError`. -/
def shock_impulse (sectors : List String) (sectors_n_shocks : Option (Dict Triple))
    (general_shock : Triple) : Except PyErr (Dict Triple) :=
  let shock_vec : Dict Triple := sectors.foldl
    (fun d sector =>
      dictInsert d sector (general_shock.1 / 12, general_shock.2.1 / 12, general_shock.2.2))
    []
  match sectors_n_shocks with
  | none => .error .typeError
  | some snd => .ok (snd.foldl (fun d p => dictInsert d p.1 p.2) shock_vec)

/-- Embedding of `LeonTradeModel.recovery_impulse`: in `Spread stimulus` mode every
sector gets the general-stimulus triple (first two components divided by
12); in `Target sector(s)` mode only the named sectors are inserted, and
iterating `sectors_n_stimuli=None` raises a `TypeError`; any other mode
returns the empty dict. -/
def recovery_impulse (sectors : List String) (sectors_n_stimuli : Option (Dict Triple))
    (general_stimulus : Triple) (type_stimulus : String) : Except PyErr (Dict Triple) :=
  if type_stimulus = "Spread stimulus" then
    .ok (sectors.foldl
      (fun d sector =>
        dictInsert d sector
          (general_stimulus.1 / 12, general_stimulus.2.1 / 12, general_stimulus.2.2))
      [])
  else if type_stimulus = "Target sector(s)" then
    match sectors_n_stimuli with
    | none => .error .typeError
    | some stim => .ok (stim.foldl (fun d p => dictInsert d p.1 p.2) [])
  else .ok []

/-- Embedding of `np.dot A v` for a square matrix and a vector. -/
def matVec {n : ℕ} (A : Fin n → Fin n → ℚ) (v : Fin n → ℚ) : Fin n → ℚ :=
  fun i => ∑ j, A i j * v j

/-- Embedding of `A - np.eye(A.shape[0])`. -/
def eyeSub {n : ℕ} (A : Fin n → Fin n → ℚ) : Fin n → Fin n → ℚ :=
  fun i j => A i j - (if i = j then 1 else 0)

/-- The state of a constructed `LeonTradeModel`: the raw matrix, the
sector labels, the (possibly unset) dynamics matrix `A`, the demand
vector and the baseline output. -/
structure LeonTradeModel (n : ℕ) : Type where
  df_A : Fin n → Fin n → ℚ
  sectors : List String
  A : Option (Fin n → Fin n → ℚ)
  d_base : Fin n → ℚ
  x_base : Fin n → ℚ

/-- Embedding of `LeonTradeModel.__init__`: `A` is set to the matrix for
`type='Upstream'`, to its transpose for `type='Downstream'`, and is left
unset for any other `type`; `d_base` is all-ones for `demand='unit'`
(modelled as `none`); `x_base = np.dot(df_A.values, d_base)` — always the
matrix as given. -/
def LeonTradeModel.init (n : ℕ) (labels : Fin n → String) (df_A : Fin n → Fin n → ℚ)
    (demand : Option (Fin n → ℚ)) (ty : String) : LeonTradeModel n :=
  { df_A := df_A
    sectors := (List.ofFn labels).dedup
    A := if ty = "Upstream" then some df_A
         else if ty = "Downstream" then some (fun i j => df_A j i)
         else none
    d_base := match demand with
      | none => fun _ => 1
      | some d => d
    x_base := matVec df_A (match demand with
      | none => fun _ => 1
      | some d => d) }

/-- Label-based assignment `series[lbl] = x` on a `pd.Series` indexed by
the sector labels: every position carrying that label is overwritten. -/
def setLabel {n : ℕ} (sectors : Fin n → String) (v : Fin n → ℚ) (lbl : String) (x : ℚ) :
    Fin n → ℚ :=
  fun i => if sectors i = lbl then x else v i

/-- The loop of `economic_dynamics_ode` that fills the shock vector:
starting from zeros, each dict entry whose interval contains `t`
overwrites its sector's position with the entry's magnitude. -/
def forcingVec {n : ℕ} (sectors : Fin n → String) (spec : Dict Triple) (t : ℚ) :
    Fin n → ℚ :=
  spec.foldl
    (fun v p => if p.2.1 ≤ t ∧ t ≤ p.2.2.1 then setLabel sectors v p.1 p.2.2.2 else v)
    (fun _ => 0)

/-- Declarative piecewise-constant forcing evaluation: the magnitude of
the last entry for this sector whose interval contains `t`, else `0`. -/
def evalForcing {n : ℕ} (sectors : Fin n → String) (spec : Dict Triple) (t : ℚ) (i : Fin n) :
    ℚ :=
  match spec.reverse.find? (fun p => decide (p.1 = sectors i ∧ p.2.1 ≤ t ∧ t ≤ p.2.2.1)) with
  | some p => p.2.2.2
  | none => 0

/-- Embedding of `economic_dynamics_ode(y, t, A, sectors, external_shock_vec_dict)`:
`np.dot(A - np.eye(n), y) + shock_vec`.  (The `time_vec` diagnostic
append in the source is dead instrumentation with no effect on the
returned value and is omitted.) -/
def economic_dynamics_ode {n : ℕ} (y : Fin n → ℚ) (t : ℚ) (A : Fin n → Fin n → ℚ)
    (sectors : Fin n → String) (external_shock_vec_dict : Dict Triple) : Fin n → ℚ :=
  fun i => matVec (eyeSub A) y i + forcingVec sectors external_shock_vec_dict t i

/-- Embedding of `economic_dynamics_ode_rec(y, t, A, sectors, shock_dict, recovery_dict)`:
`np.dot(A - np.eye(n), y) + shock_vec + recovery_vec`. -/
def economic_dynamics_ode_rec {n : ℕ} (y : Fin n → ℚ) (t : ℚ) (A : Fin n → Fin n → ℚ)
    (sectors : Fin n → String) (external_shock_vec_dict recovery_dict : Dict Triple) :
    Fin n → ℚ :=
  fun i => matVec (eyeSub A) y i + forcingVec sectors external_shock_vec_dict t i +
    forcingVec sectors recovery_dict t i

/-- Model of `scipy.integrate.odeint` as an explicit one-step (Euler)
discretization of the supplied right-hand side over the requested time
grid: the solver itself is an external library, and the claims settled
against this model depend only on the right-hand-side evaluations along
the trajectory.  Returns one state per grid point, starting at `y0`. -/
def odeint {n : ℕ} (f : (Fin n → ℚ) → ℚ → Fin n → ℚ) :
    (Fin n → ℚ) → List ℚ → List (Fin n → ℚ)
  | _, [] => []
  | y0, [_] => [y0]
  | y0, t :: t' :: ts =>
      y0 :: odeint f (fun i => y0 i + (t' - t) * f y0 t i) (t' :: ts)

/-- One panel of scipy's `_basic_simps` with explicit sample points:
base index `i`, spacings `h0 = x[i+1]-x[i]` and `h1 = x[i+2]-x[i+1]`. -/
def basicSimpsTerm (y x : List ℚ) (i : ℕ) : ℚ :=
  let h0 := x.getD (i + 1) 0 - x.getD i 0
  let h1 := x.getD (i + 2) 0 - x.getD (i + 1) 0
  let hsum := h0 + h1
  let hprod := h0 * h1
  let h0divh1 := h0 / h1
  hsum / 6 * (y.getD i 0 * (2 - 1 / h0divh1)
    + y.getD (i + 1) 0 * (hsum * hsum / hprod)
    + y.getD (i + 2) 0 * (2 - h0divh1))

/-- scipy's `_basic_simps(y, start, stop, x, dx, axis)` for explicit `x`:
the sum of the panels with base indices `start, start+2, ...` below
`stop`. -/
def basicSimps (y x : List ℚ) (start stop : ℕ) : ℚ :=
  ∑ k ∈ Finset.range ((stop - start + 1) / 2), basicSimpsTerm y x (start + 2 * k)

/-- scipy's `simps(y, x)` with the default `even='avg'`: plain composite
Simpson for an odd number of samples; for an even number, the average of
(Simpson on the first `N-1` samples plus a trapezoid on the last
interval) and (a trapezoid on the first interval plus Simpson on the
last `N-1` samples). -/
def simps (y x : List ℚ) : ℚ :=
  let N := y.length
  if N % 2 = 0 then
    let lastDx := x.getD (N - 1) 0 - x.getD (N - 2) 0
    let firstDx := x.getD 1 0 - x.getD 0 0
    let val := 1 / 2 * lastDx * (y.getD (N - 1) 0 + y.getD (N - 2) 0)
      + 1 / 2 * firstDx * (y.getD 1 0 + y.getD 0 0)
    let result := basicSimps y x 0 (N - 3) + basicSimps y x 1 (N - 2)
    result / 2 + val / 2
  else
    basicSimps y x 0 (N - 2)

/-- Embedding of `total_out_loss(sol, time_vec, by_sector, sectors)`: per sector the
`simps` quadrature of that sector's trajectory column against the time
grid; otherwise the sum over all sectors of the same column quadratures.
The trajectory is one state vector per time sample. -/
def total_out_loss {n : ℕ} (sol : List (Fin n → ℚ)) (time_vec : List ℚ)
    (by_sector : Bool) : (Fin n → ℚ) ⊕ ℚ :=
  if by_sector then
    Sum.inl (fun s => simps (sol.map (fun r => r s)) time_vec)
  else
    Sum.inr (∑ j, simps (sol.map (fun r => r j)) time_vec)

section DictLemmas

variable {β : Type}

theorem dictGet?_nil {β : Type} (k : String) : dictGet? ([] : Dict β) k = none := rfl

theorem dictGet?_cons_of_eq (q : String × β) (rest : Dict β) (k : String) (h : q.1 = k) :
    dictGet? (q :: rest) k = some q.2 := by
  rw [dictGet?, List.find?_cons_of_pos _ (by simpa using h)]
  rfl

theorem dictGet?_cons_of_ne (q : String × β) (rest : Dict β) (k : String) (h : q.1 ≠ k) :
    dictGet? (q :: rest) k = dictGet? rest k := by
  rw [dictGet?, List.find?_cons_of_neg _ (by simpa using h)]
  rfl

theorem dictGet?_map_overwrite_self (d : Dict β) (k : String) (v : β)
    (h : ∃ p ∈ d, p.1 = k) :
    dictGet? (d.map (fun p => if p.1 = k then (k, v) else p)) k = some v := by
  induction d with
  | nil => simp at h
  | cons q rest ih =>
    simp only [List.map_cons]
    by_cases hq : q.1 = k
    · rw [if_pos hq, dictGet?_cons_of_eq _ _ _ rfl]
    · rw [if_neg hq, dictGet?_cons_of_ne _ _ _ hq]
      rcases h with ⟨p, hp, hpk⟩
      rcases List.mem_cons.mp hp with h1 | h2
      · exact absurd (h1 ▸ hpk) hq
      · exact ih ⟨p, h2, hpk⟩

theorem dictGet?_map_overwrite_other (d : Dict β) (k k' : String) (v : β) (hk : k' ≠ k) :
    dictGet? (d.map (fun p => if p.1 = k then (k, v) else p)) k' = dictGet? d k' := by
  induction d with
  | nil => rfl
  | cons q rest ih =>
    simp only [List.map_cons]
    by_cases hq : q.1 = k
    · rw [if_pos hq, dictGet?_cons_of_ne (k, v) _ k' (Ne.symm hk),
        dictGet?_cons_of_ne q rest k' (fun hc => hk (hc.symm.trans hq)), ih]
    · by_cases hq' : q.1 = k'
      · rw [if_neg hq, dictGet?_cons_of_eq _ _ _ hq', dictGet?_cons_of_eq _ _ _ hq']
      · rw [if_neg hq, dictGet?_cons_of_ne _ _ _ hq', dictGet?_cons_of_ne _ _ _ hq', ih]

theorem dictGet?_append_singleton (d : Dict β) (k k' : String) (v : β)
    (h : ∀ p ∈ d, p.1 ≠ k) :
    dictGet? (d ++ [(k, v)]) k' = if k' = k then some v else dictGet? d k' := by
  induction d with
  | nil =>
    by_cases hk : k' = k
    · rw [List.nil_append, dictGet?_cons_of_eq _ _ _ hk.symm, if_pos hk]
    · rw [List.nil_append, dictGet?_cons_of_ne _ _ _ (fun hc => hk hc.symm), if_neg hk]
  | cons q rest ih =>
    have hq : q.1 ≠ k := h q (List.mem_cons_self q rest)
    by_cases hq' : q.1 = k'
    · rw [List.cons_append, dictGet?_cons_of_eq _ _ _ hq',
        if_neg (fun hc => hq (hq'.trans hc)), dictGet?_cons_of_eq _ _ _ hq']
    · rw [List.cons_append, dictGet?_cons_of_ne _ _ _ hq',
        ih (fun p hp => h p (List.mem_cons_of_mem q hp)), dictGet?_cons_of_ne _ _ _ hq']

theorem dictGet?_dictInsert (d : Dict β) (k k' : String) (v : β) :
    dictGet? (dictInsert d k v) k' = if k' = k then some v else dictGet? d k' := by
  unfold dictInsert
  by_cases hany : d.any (fun p => decide (p.1 = k)) = true
  · rw [if_pos hany]
    by_cases hk : k' = k
    · subst hk
      rw [if_pos rfl]
      apply dictGet?_map_overwrite_self
      rcases List.any_eq_true.mp hany with ⟨p, hp, hpk⟩
      exact ⟨p, hp, of_decide_eq_true hpk⟩
    · rw [if_neg hk]
      exact dictGet?_map_overwrite_other d k k' v hk
  · rw [if_neg hany]
    apply dictGet?_append_singleton
    intro p hp hpk
    exact hany (List.any_eq_true.mpr ⟨p, hp, decide_eq_true hpk⟩)

theorem dictGet?_foldl_const_insert (l : List String) (d₀ : Dict β) (v : β) (k : String) :
    dictGet? (l.foldl (fun d s => dictInsert d s v) d₀) k =
      if k ∈ l then some v else dictGet? d₀ k := by
  induction l generalizing d₀ with
  | nil => simp
  | cons a l ih =>
    simp only [List.foldl_cons]
    rw [ih]
    by_cases hl : k ∈ l
    · simp [hl]
    · rw [dictGet?_dictInsert]
      by_cases ha : k = a
      · simp [ha, hl]
      · simp [ha, hl, List.mem_cons]

theorem dictGet?_foldl_insert_isSome (l : Dict β) (d₀ : Dict β) (k : String) :
    (dictGet? (l.foldl (fun d p => dictInsert d p.1 p.2) d₀) k).isSome = true ↔
      k ∈ l.map Prod.fst ∨ (dictGet? d₀ k).isSome = true := by
  induction l generalizing d₀ with
  | nil => simp
  | cons p l ih =>
    simp only [List.foldl_cons]
    rw [ih]
    rw [dictGet?_dictInsert]
    by_cases hp : k = p.1
    · simp [hp]
    · simp [hp, List.mem_cons]

end DictLemmas

section ForcingLemmas

variable {n : ℕ}

theorem forcingVec_eq_evalForcing (sectors : Fin n → String) (spec : Dict Triple)
    (t : ℚ) (i : Fin n) :
    forcingVec sectors spec t i = evalForcing sectors spec t i := by
  induction spec using List.reverseRecOn with
  | nil => rfl
  | append_singleton l p ih =>
    have hl : forcingVec sectors (l ++ [p]) t i =
        if p.2.1 ≤ t ∧ t ≤ p.2.2.1 then
          (if sectors i = p.1 then p.2.2.2 else forcingVec sectors l t i)
        else forcingVec sectors l t i := by
      unfold forcingVec setLabel
      simp only [List.foldl_append, List.foldl_cons, List.foldl_nil]
      by_cases hact : p.2.1 ≤ t ∧ t ≤ p.2.2.1
      · rw [if_pos hact, if_pos hact]
      · rw [if_neg hact, if_neg hact]
    have hr : evalForcing sectors (l ++ [p]) t i =
        if (p.2.1 ≤ t ∧ t ≤ p.2.2.1) ∧ sectors i = p.1 then p.2.2.2
        else evalForcing sectors l t i := by
      unfold evalForcing
      rw [List.reverse_append, List.reverse_singleton, List.singleton_append]
      by_cases hcond : (p.2.1 ≤ t ∧ t ≤ p.2.2.1) ∧ sectors i = p.1
      · rw [List.find?_cons_of_pos _ ?_, if_pos hcond]
        simp only [decide_eq_true_eq]
        exact ⟨hcond.2.symm, hcond.1.1, hcond.1.2⟩
      · rw [List.find?_cons_of_neg _ ?_, if_neg hcond]
        simp only [decide_eq_true_eq]
        rintro ⟨hc1, hc2, hc3⟩
        exact hcond ⟨⟨hc2, hc3⟩, hc1.symm⟩
    rw [hl, hr, ih]
    by_cases hact : p.2.1 ≤ t ∧ t ≤ p.2.2.1
    · by_cases hlbl : sectors i = p.1
      · rw [if_pos hact, if_pos hlbl, if_pos ⟨hact, hlbl⟩]
      · rw [if_pos hact, if_neg hlbl, if_neg (fun hc => hlbl hc.2)]
    · rw [if_neg hact, if_neg (fun hc => hact hc.1)]

theorem evalForcing_of_unique_entry (sectors : Fin n → String) (spec : Dict Triple)
    (t : ℚ) (i : Fin n) (lbl : String) (trip : Triple)
    (hnd : (spec.map Prod.fst).Nodup) (hmem : (lbl, trip) ∈ spec) (hlbl : sectors i = lbl) :
    evalForcing sectors spec t i =
      if trip.1 ≤ t ∧ t ≤ trip.2.1 then trip.2.2 else 0 := by
  induction spec with
  | nil => simp at hmem
  | cons q rest ih =>
    rw [List.map_cons, List.nodup_cons] at hnd
    rcases List.mem_cons.mp hmem with h1 | h2
    · -- the entry is at the head; no later entry carries this label
      subst h1
      have hnone : rest.reverse.find?
          (fun p => decide (p.1 = sectors i ∧ p.2.1 ≤ t ∧ t ≤ p.2.2.1)) = none := by
        rw [List.find?_eq_none]
        intro r hr
        simp only [decide_eq_true_eq]
        rintro ⟨hr1, -, -⟩
        apply hnd.1
        rw [show ((lbl, trip) : String × Triple).1 = lbl from rfl, ← hlbl, ← hr1]
        exact List.mem_map_of_mem Prod.fst (List.mem_reverse.mp hr)
      rw [evalForcing, List.reverse_cons, List.find?_append, hnone, Option.none_or,
        List.find?_singleton]
      by_cases hact : trip.1 ≤ t ∧ t ≤ trip.2.1
      · have hcnd : ((fun p : String × Triple =>
            decide (p.1 = sectors i ∧ p.2.1 ≤ t ∧ t ≤ p.2.2.1)) (lbl, trip)) = true := by
          simp only [decide_eq_true_eq]
          exact ⟨hlbl.symm, hact.1, hact.2⟩
        rw [if_pos hcnd, if_pos hact]
      · rw [if_neg ?_, if_neg hact]
        simp only [decide_eq_true_eq]
        rintro ⟨-, hc2, hc3⟩
        exact hact ⟨hc2, hc3⟩
    · -- the entry is in the tail; the head carries a different label
      have hq : ¬ ((fun p : String × Triple =>
          decide (p.1 = sectors i ∧ p.2.1 ≤ t ∧ t ≤ p.2.2.1)) q = true) := by
        simp only [decide_eq_true_eq]
        rintro ⟨hc, -, -⟩
        exact hnd.1 (by rw [hc, hlbl]; exact List.mem_map_of_mem Prod.fst h2)
      have hstep : evalForcing sectors (q :: rest) t i = evalForcing sectors rest t i := by
        unfold evalForcing
        rw [List.reverse_cons, List.find?_append, List.find?_singleton, if_neg hq,
          Option.or_none]
      rw [hstep]
      exact ih hnd.2 h2

end ForcingLemmas

section SimpsLemmas

theorem getD_map_add {α : Type} (l : List α) (f g : α → ℚ) (i : ℕ) :
    (l.map (fun r => f r + g r)).getD i 0 = (l.map f).getD i 0 + (l.map g).getD i 0 := by
  simp only [List.getD_eq_getElem?_getD, List.getElem?_map]
  cases h : l[i]? with
  | none => simp [h]
  | some a => simp [h]

theorem getD_map_zero {α : Type} (l : List α) (i : ℕ) :
    (l.map (fun _ => (0 : ℚ))).getD i 0 = 0 := by
  simp only [List.getD_eq_getElem?_getD, List.getElem?_map]
  cases h : l[i]? with
  | none => simp [h]
  | some a => simp [h]

theorem basicSimpsTerm_add (y₁ y₂ y₃ x : List ℚ)
    (h : ∀ i, y₃.getD i 0 = y₁.getD i 0 + y₂.getD i 0) (i : ℕ) :
    basicSimpsTerm y₃ x i = basicSimpsTerm y₁ x i + basicSimpsTerm y₂ x i := by
  simp only [basicSimpsTerm, h]
  ring

theorem basicSimps_add (y₁ y₂ y₃ x : List ℚ)
    (h : ∀ i, y₃.getD i 0 = y₁.getD i 0 + y₂.getD i 0) (start stop : ℕ) :
    basicSimps y₃ x start stop = basicSimps y₁ x start stop + basicSimps y₂ x start stop := by
  unfold basicSimps
  rw [← Finset.sum_add_distrib]
  exact Finset.sum_congr rfl (fun k _ => basicSimpsTerm_add y₁ y₂ y₃ x h _)

theorem simps_add (y₁ y₂ y₃ x : List ℚ) (hlen₁ : y₁.length = y₃.length)
    (hlen₂ : y₂.length = y₃.length)
    (h : ∀ i, y₃.getD i 0 = y₁.getD i 0 + y₂.getD i 0) :
    simps y₃ x = simps y₁ x + simps y₂ x := by
  unfold simps
  rw [hlen₁, hlen₂]
  by_cases hpar : y₃.length % 2 = 0
  · rw [if_pos hpar, if_pos hpar, if_pos hpar]
    simp only [h, basicSimps_add y₁ y₂ y₃ x h]
    ring
  · rw [if_neg hpar, if_neg hpar, if_neg hpar]
    exact basicSimps_add y₁ y₂ y₃ x h _ _

theorem basicSimpsTerm_zero (y x : List ℚ) (h : ∀ i, y.getD i 0 = 0) (i : ℕ) :
    basicSimpsTerm y x i = 0 := by
  simp only [basicSimpsTerm, h]
  ring

theorem simps_zero (y x : List ℚ) (h : ∀ i, y.getD i 0 = 0) : simps y x = 0 := by
  have hb : ∀ start stop, basicSimps y x start stop = 0 := by
    intro start stop
    unfold basicSimps
    exact Finset.sum_eq_zero (fun k _ => basicSimpsTerm_zero y x h _)
  unfold simps
  by_cases hpar : y.length % 2 = 0
  · rw [if_pos hpar]
    simp only [h, hb]
    ring
  · rw [if_neg hpar]
    exact hb _ _

theorem simps_map_sum {α : Type} (l : List α) (x : List ℚ) {m : ℕ}
    (f : Fin m → α → ℚ) (s : Finset (Fin m)) :
    simps (l.map (fun r => ∑ j ∈ s, f j r)) x = ∑ j ∈ s, simps (l.map (f j)) x := by
  induction s using Finset.induction_on with
  | empty =>
    simp only [Finset.sum_empty]
    exact simps_zero _ x (fun i => getD_map_zero l i)
  | insert ha ih =>
    rename_i a s'
    rw [Finset.sum_insert ha]
    rw [← ih]
    have hsum : ∀ r, ∑ j ∈ insert a s', f j r = f a r + ∑ j ∈ s', f j r := by
      intro r
      rw [Finset.sum_insert ha]
    calc simps (l.map (fun r => ∑ j ∈ insert a s', f j r)) x
        = simps (l.map (fun r => f a r + ∑ j ∈ s', f j r)) x := by
          congr 1
          exact List.map_congr_left (fun r _ => hsum r)
      _ = simps (l.map (f a)) x + simps (l.map (fun r => ∑ j ∈ s', f j r)) x := by
          apply simps_add
          · simp
          · simp
          · intro i
            exact getD_map_add l (f a) (fun r => ∑ j ∈ s', f j r) i

end SimpsLemmas

theorem shock_impulse_some_ok (sectors : List String) (ov : Dict Triple) (g : Triple) :
    shock_impulse sectors (some ov) g =
      .ok (ov.foldl (fun d p => dictInsert d p.1 p.2)
        (sectors.foldl (fun d s => dictInsert d s (g.1 / 12, g.2.1 / 12, g.2.2)) [])) := rfl

theorem recovery_impulse_targeted_ok (sectors : List String) (stim : Dict Triple)
    (g : Triple) :
    recovery_impulse sectors (some stim) g "Target sector(s)" =
      .ok (stim.foldl (fun d p => dictInsert d p.1 p.2) []) := by
  unfold recovery_impulse
  rw [if_neg (by decide), if_pos rfl]

theorem odeint_fixed_zero {n : ℕ} (f : (Fin n → ℚ) → ℚ → Fin n → ℚ)
    (hf : ∀ t, f (fun _ => 0) t = fun _ => 0) (grid : List ℚ) :
    ∀ z ∈ odeint f (fun _ => 0) grid, z = fun _ => 0 := by
  induction grid with
  | nil =>
    intro z hz
    simp [odeint] at hz
  | cons t rest ih =>
    cases rest with
    | nil =>
      intro z hz
      simp only [odeint, List.mem_singleton] at hz
      exact hz
    | cons t' ts =>
      intro z hz
      simp only [odeint] at hz
      rcases List.mem_cons.mp hz with h1 | h2
      · exact h1
      · have hnext : (fun i => (fun _ : Fin n => (0 : ℚ)) i + (t' - t) * f (fun _ => 0) t i) =
            (fun _ : Fin n => (0 : ℚ)) := by
          funext i
          rw [hf t]
          ring
        rw [hnext] at h2
        exact ih z h2

/-- C9: `shock_impulse` called with `sectors_n_shocks` left at its default
`None` does not return a defaults-only spec: it raises a `TypeError` when
it iterates the overrides, for every sector list and economy-wide shock;
any non-`None` overrides mapping (even the empty one) makes it return a
spec, so a non-`None` overrides mapping is a precondition. -/
theorem shock_impulse_none_raises (sectors : List String) (general_shock : Triple) :
    shock_impulse sectors none general_shock = .error .typeError ∧
      ∀ ov : Dict Triple, ∃ d, shock_impulse sectors (some ov) general_shock = .ok d :=
  ⟨rfl, fun _ => ⟨_, rfl⟩⟩

/-- C10: constructing the model with a direction other than `Upstream` or
`Downstream` leaves the dynamics matrix `A` unset (`none`), while the two
valid directions set it to the matrix as given resp. its transpose. -/
theorem init_direction_precondition (n : ℕ) (labels : Fin n → String)
    (df_A : Fin n → Fin n → ℚ) (demand : Option (Fin n → ℚ)) (ty : String)
    (h1 : ty ≠ "Upstream") (h2 : ty ≠ "Downstream") :
    (LeonTradeModel.init n labels df_A demand ty).A = none ∧
      (LeonTradeModel.init n labels df_A demand "Upstream").A = some df_A ∧
      (LeonTradeModel.init n labels df_A demand "Downstream").A =
        some (fun i j => df_A j i) := by
  refine ⟨?_, ?_, ?_⟩
  · unfold LeonTradeModel.init
    simp only [if_neg h1, if_neg h2]
  · simp [LeonTradeModel.init]
  · simp [LeonTradeModel.init]

theorem init_direction_precondition_witness :
    (LeonTradeModel.init 1 (fun _ => "A") (fun _ _ => 0) none "Sideways").A = none ∧
      (LeonTradeModel.init 1 (fun _ => "A") (fun _ _ => 0) none "Upstream").A =
        some (fun _ _ => 0) ∧
      (LeonTradeModel.init 1 (fun _ => "A") (fun _ _ => 0) none "Downstream").A =
        some (fun i j => (fun _ _ : Fin 1 => (0 : ℚ)) j i) :=
  init_direction_precondition 1 (fun _ => "A") (fun _ _ => 0) none "Sideways"
    (by decide) (by decide)

/-- C3 (amended): the baseline output `x_base` is computed as
`np.dot(df_A.values, d_base)` — the matrix as given — for every
propagation direction; only the dynamics matrix `A` is
direction-selected, so `x_base` does not change when the direction does. -/
theorem x_base_uses_matrix_as_given (n : ℕ) (labels : Fin n → String)
    (df_A : Fin n → Fin n → ℚ) (demand : Option (Fin n → ℚ)) (ty ty' : String) :
    (LeonTradeModel.init n labels df_A demand ty).x_base =
      matVec df_A (LeonTradeModel.init n labels df_A demand ty).d_base ∧
    (LeonTradeModel.init n labels df_A demand ty).x_base =
      (LeonTradeModel.init n labels df_A demand ty').x_base :=
  ⟨rfl, rfl⟩

/-- C3 counterexample: with the matrix `[[0,1],[0,0]]`, unit demand and
direction `Downstream`, the stored baseline at the first sector is
`(A·1)₀ = 1`, not `(Aᵀ·1)₀ = 0`: construction does not use the
transpose for the downstream baseline. -/
theorem x_base_downstream_counterexample :
    (LeonTradeModel.init 2 (fun _ => "A") ![![0, 1], ![0, 0]] none "Downstream").x_base 0 ≠
      matVec (fun i j => (![![0, 1], ![0, 0]] : Fin 2 → Fin 2 → ℚ) j i) (fun _ => 1) 0 := by
  simp only [LeonTradeModel.init, matVec, Fin.sum_univ_two]
  norm_num

/-- C4 (amended): building a shock spec performs no sector validation:
with any non-`None` overrides mapping it always succeeds (no
`ConfigurationError` exists to be raised), and every override key —
including keys naming sectors absent from the economy — ends up as a key
of the returned spec. -/
theorem shock_impulse_no_validation (sectors : List String) (ov : Dict Triple)
    (general_shock : Triple) :
    ∃ d, shock_impulse sectors (some ov) general_shock = .ok d ∧
      ∀ k, k ∈ ov.map Prod.fst → (dictGet? d k).isSome = true := by
  refine ⟨_, rfl, ?_⟩
  intro k hk
  rw [dictGet?_foldl_insert_isSome]
  exact Or.inl hk

theorem shock_impulse_no_validation_witness :
    ∃ d, shock_impulse ["A"] (some [("X", ((0 : ℚ), (0 : ℚ), (0 : ℚ)))])
        ((0 : ℚ), (0 : ℚ), (0 : ℚ)) = .ok d ∧
      (dictGet? d "X").isSome = true := by
  obtain ⟨d, h1, h2⟩ := shock_impulse_no_validation ["A"] [("X", (0, 0, 0))] (0, 0, 0)
  exact ⟨d, h1, h2 "X" (by decide)⟩

/-- C4 counterexample: an override naming the sector `X`, absent from the
single-sector economy `[A]`, does not fail: the spec is returned with the
unknown key `X` silently appended. -/
theorem shock_impulse_unknown_sector_counterexample :
    shock_impulse ["A"] (some [("X", ((0 : ℚ), 0, 0))]) (0, 0, 0) =
      .ok [("A", (0, 0, 0)), ("X", (0, 0, 0))] := by
  rw [shock_impulse_some_ok]
  norm_num [dictInsert]
  decide

/-- C1 (amended): for percent input `m` over months `[s, e]`, the
economy-wide path (`general_shock_list` into `shock_impulse`) stores, on
every sector, the triple `(s/12, e/12, m/100)`, and the targeted path
(a `sectors_n_shocks` entry) stores `(s/12, e/12, m/100)` as well: the
division by 12 applies to the start/end month offsets in both cases,
never to the magnitude, so the two stored magnitudes are equal (both
`m/100`) rather than differing by a factor of 12. -/
theorem shock_magnitude_convention (sectors : List String) (sec : String)
    (s e m s2 e2 m2 : ℚ) (hsec : sec ∈ sectors) :
    (∀ d, shock_impulse sectors (some []) (general_shock_list s e m) = .ok d →
      dictGet? d sec = some (s / 12, e / 12, m / 100)) ∧
    (∀ d, shock_impulse sectors (some [(sec, sectors_n_shocks_entry s2 e2 m2)])
        (general_shock_list s e m) = .ok d →
      dictGet? d sec = some (s2 / 12, e2 / 12, m2 / 100)) := by
  constructor
  · intro d hd
    rw [shock_impulse_some_ok] at hd
    injection hd with hd
    subst hd
    rw [List.foldl_nil, dictGet?_foldl_const_insert, if_pos hsec]
    rfl
  · intro d hd
    rw [shock_impulse_some_ok] at hd
    injection hd with hd
    subst hd
    rw [List.foldl_cons, List.foldl_nil, dictGet?_dictInsert, if_pos rfl]
    rfl

theorem shock_magnitude_convention_witness :
    (∀ d, shock_impulse ["A"] (some []) (general_shock_list 0 6 12) = .ok d →
      dictGet? d "A" = some ((0 : ℚ) / 12, (6 : ℚ) / 12, (12 : ℚ) / 100)) ∧
    (∀ d, shock_impulse ["A"] (some [("A", sectors_n_shocks_entry 0 6 12)])
        (general_shock_list 0 6 12) = .ok d →
      dictGet? d "A" = some ((0 : ℚ) / 12, (6 : ℚ) / 12, (12 : ℚ) / 100)) :=
  shock_magnitude_convention ["A"] "A" 0 6 12 0 6 12 (by decide)

/-- C1 counterexample: an economy-wide 12% shock over months 0–6 is
stored on sector `A` as `(0, 1/2, 3/25)` — magnitude `12/100 = 3/25`,
not `12/100/12 = 1/100` — and the identical targeted input stores the
very same triple, so the two stored magnitudes are equal, not a factor
of 12 apart. -/
theorem shock_magnitude_counterexample :
    shock_impulse ["A"] (some []) (general_shock_list 0 6 12) =
        .ok [("A", (0, 1 / 2, 3 / 25))] ∧
      sectors_n_shocks_entry 0 6 12 = (0, 1 / 2, 3 / 25) ∧
      (3 : ℚ) / 25 ≠ 12 / 100 / 12 := by
  refine ⟨?_, ?_, by norm_num⟩
  · rw [shock_impulse_some_ok]
    norm_num [dictInsert, general_shock_list]
  · norm_num [sectors_n_shocks_entry, Prod.ext_iff]

/-- C5 (amended): targeted recovery ignores the economy-wide default and
the economy's sector list entirely, and the returned mapping has exactly
the override keys: a sector of the economy not named in the overrides
receives no entry at all (not a zero triple), so the mapping has one
entry per named override rather than one per sector. -/
theorem recovery_targeted_only_named (sectors : List String) (stim : Dict Triple)
    (general_stimulus : Triple) (s : String) :
    recovery_impulse sectors (some stim) general_stimulus "Target sector(s)" =
      recovery_impulse [] (some stim) (0, 0, 0) "Target sector(s)" ∧
    ∀ d, recovery_impulse sectors (some stim) general_stimulus "Target sector(s)" = .ok d →
      ((dictGet? d s).isSome = true ↔ s ∈ stim.map Prod.fst) := by
  constructor
  · rw [recovery_impulse_targeted_ok, recovery_impulse_targeted_ok]
  · intro d hd
    rw [recovery_impulse_targeted_ok] at hd
    injection hd with hd
    subst hd
    rw [dictGet?_foldl_insert_isSome]
    simp [dictGet?_nil]

theorem recovery_targeted_only_named_witness :
    (dictGet? [("A", ((0 : ℚ), (1 : ℚ), (1 : ℚ)))] "B").isSome = true ↔
      "B" ∈ [("A", ((0 : ℚ), (1 : ℚ), (1 : ℚ)))].map Prod.fst :=
  (recovery_targeted_only_named ["A", "B"] [("A", (0, 1, 1))] (0, 0, 0) "B").2
    [("A", (0, 1, 1))] (by rw [recovery_impulse_targeted_ok]; simp [dictInsert])

/-- C5 counterexample: in the two-sector economy `[A, B]`, a targeted
recovery naming only `A` returns a one-entry mapping containing `A`
alone: sector `B` receives no zero triple and the mapping does not have
one entry per sector of the economy. -/
theorem recovery_targeted_counterexample :
    recovery_impulse ["A", "B"] (some [("A", ((0 : ℚ), 1, 1))]) (0, 0, 0)
        "Target sector(s)" = .ok [("A", (0, 1, 1))] := by
  rw [recovery_impulse_targeted_ok]
  simp [dictInsert]

/-- C2: for every state `y`, time `t`, matrix `A` and forcing specs whose
keys are sector labels, the shock-only right-hand side equals
`(A − I)·y + shock(t)` and the recovery variant equals
`(A − I)·y + shock(t) + recovery(t)`, with the forcings evaluated as the
piecewise-constant interval rule at `t`. -/
theorem economic_dynamics_rhs (n : ℕ) (y : Fin n → ℚ) (t : ℚ) (A : Fin n → Fin n → ℚ)
    (sectors : Fin n → String) (shock_dict recovery_dict : Dict Triple)
    (hs : ∀ p ∈ shock_dict, p.1 ∈ List.ofFn sectors)
    (hr : ∀ p ∈ recovery_dict, p.1 ∈ List.ofFn sectors) :
    economic_dynamics_ode y t A sectors shock_dict =
      (fun i => matVec (eyeSub A) y i + evalForcing sectors shock_dict t i) ∧
    economic_dynamics_ode_rec y t A sectors shock_dict recovery_dict =
      (fun i => matVec (eyeSub A) y i + evalForcing sectors shock_dict t i +
        evalForcing sectors recovery_dict t i) := by
  constructor
  · funext i
    simp only [economic_dynamics_ode, forcingVec_eq_evalForcing]
  · funext i
    simp only [economic_dynamics_ode_rec, forcingVec_eq_evalForcing]

theorem economic_dynamics_rhs_witness :
    economic_dynamics_ode (fun _ => 2) 0 (fun _ _ => 3) (fun _ : Fin 1 => "A")
        [("A", (0, 1, 5))] =
      (fun i => matVec (eyeSub (fun _ _ => 3)) (fun _ => 2) i +
        evalForcing (fun _ : Fin 1 => "A") [("A", (0, 1, 5))] 0 i) ∧
    economic_dynamics_ode_rec (fun _ => 2) 0 (fun _ _ => 3) (fun _ : Fin 1 => "A")
        [("A", (0, 1, 5))] [] =
      (fun i => matVec (eyeSub (fun _ _ => 3)) (fun _ => 2) i +
        evalForcing (fun _ : Fin 1 => "A") [("A", (0, 1, 5))] 0 i +
        evalForcing (fun _ : Fin 1 => "A") [] 0 i) :=
  economic_dynamics_rhs 1 (fun _ => 2) 0 (fun _ _ => 3) (fun _ => "A")
    [("A", (0, 1, 5))] [] (by decide) (by decide)

/-- C6: for a spec with unique keys, the forcing evaluated at time `t`
for a sector carrying the key of an entry `(t0, t1, v)` equals `v`
exactly when `t0 ≤ t ≤ t1` — both boundary instants included — and `0`
for every `t` outside the closed interval. -/
theorem forcing_boundary_inclusive (n : ℕ) (sectors : Fin n → String) (spec : Dict Triple)
    (t t0 t1 v : ℚ) (lbl : String) (i : Fin n)
    (hnd : (spec.map Prod.fst).Nodup) (hmem : (lbl, (t0, t1, v)) ∈ spec)
    (hlbl : sectors i = lbl) :
    forcingVec sectors spec t i = if t0 ≤ t ∧ t ≤ t1 then v else 0 := by
  rw [forcingVec_eq_evalForcing]
  exact evalForcing_of_unique_entry sectors spec t i lbl (t0, t1, v) hnd hmem hlbl

theorem forcing_boundary_inclusive_witness :
    forcingVec (fun _ : Fin 1 => "A") [("A", (0, 2, 5))] 0 0 =
      if (0 : ℚ) ≤ 0 ∧ (0 : ℚ) ≤ 2 then 5 else 0 :=
  forcing_boundary_inclusive 1 (fun _ => "A") [("A", (0, 2, 5))] 0 0 2 5 "A" 0
    (by decide) (List.mem_singleton.mpr rfl) rfl

/-- C7: with a forcing spec whose magnitudes are all zero — or whose
intervals are all empty of active times (`end < start`, so no `t`
satisfies the closed-interval test) — the propagation right-hand side
vanishes on the zero state at every time, and the trajectory integrated
from `y(0) = 0` over any time grid is the zero vector at every sample. -/
theorem zero_forcing_zero_trajectory (n : ℕ) (A : Fin n → Fin n → ℚ)
    (sectors : Fin n → String) (spec : Dict Triple) (grid : List ℚ)
    (h0 : (∀ p ∈ spec, p.2.2.2 = 0) ∨ (∀ p ∈ spec, p.2.2.1 < p.2.1)) :
    (∀ t, economic_dynamics_ode (fun _ => 0) t A sectors spec = fun _ => 0) ∧
    ∀ z ∈ odeint (fun y t => economic_dynamics_ode y t A sectors spec) (fun _ => 0) grid,
      z = fun _ => 0 := by
  have hpe : ∀ p ∈ spec, p.2.2.2 = 0 ∨ p.2.2.1 < p.2.1 := by
    rcases h0 with h | h
    · exact fun p hp => Or.inl (h p hp)
    · exact fun p hp => Or.inr (h p hp)
  have hrhs : ∀ t, economic_dynamics_ode (fun _ => 0) t A sectors spec = fun _ => 0 := by
    intro t
    funext i
    have hforce : ∀ (sp : Dict Triple), (∀ p ∈ sp, p.2.2.2 = 0 ∨ p.2.2.1 < p.2.1) →
        ∀ v : Fin n → ℚ, (∀ j, v j = 0) →
        ∀ j, (sp.foldl
          (fun v p => if p.2.1 ≤ t ∧ t ≤ p.2.2.1 then setLabel sectors v p.1 p.2.2.2 else v)
          v) j = 0 := by
      intro sp
      induction sp with
      | nil =>
        intro _ v hv j
        exact hv j
      | cons p rest ih =>
        intro hsp v hv j
        rw [List.foldl_cons]
        apply ih (fun q hq => hsp q (List.mem_cons_of_mem p hq))
        intro j'
        by_cases hact : p.2.1 ≤ t ∧ t ≤ p.2.2.1
        · rw [if_pos hact, setLabel]
          by_cases hlbl : sectors j' = p.1
          · rw [if_pos hlbl]
            rcases hsp p (List.mem_cons_self p rest) with hz | hlt
            · exact hz
            · exact absurd (lt_of_le_of_lt (hact.1.trans hact.2) hlt) (lt_irrefl _)
          · rw [if_neg hlbl]
            exact hv j'
        · rw [if_neg hact]
          exact hv j'
    have hmat : matVec (eyeSub A) (fun _ => 0) i = 0 := by
      simp [matVec]
    rw [economic_dynamics_ode, hmat, forcingVec,
      hforce spec hpe (fun _ => 0) (fun _ => rfl) i, add_zero]
  exact ⟨hrhs, odeint_fixed_zero _ hrhs grid⟩

theorem zero_forcing_zero_trajectory_witness :
    (∀ t, economic_dynamics_ode (fun _ => 0) t (fun _ _ => 1 / 2) (fun _ : Fin 1 => "A")
      [("A", (1, 0, 5))] = fun _ => 0) ∧
    ∀ z ∈ odeint
        (fun y t => economic_dynamics_ode y t (fun _ _ => 1 / 2) (fun _ : Fin 1 => "A")
          [("A", (1, 0, 5))])
        (fun _ => 0) [0, 1, 2],
      z = fun _ => 0 :=
  zero_forcing_zero_trajectory 1 (fun _ _ => 1 / 2) (fun _ => "A") [("A", (1, 0, 5))]
    [0, 1, 2] (Or.inr (by
      intro p hp
      rw [List.mem_singleton] at hp
      subst hp
      norm_num))

/-- C8: the scalar (whole-economy) total loss equals the sum over all
sectors of the per-sector losses computed by the identical `simps`
quadrature, and by linearity of the quadrature it also equals the
`simps` quadrature of the row-sum column of the trajectory against the
time grid. -/
theorem total_out_loss_decomposition (n : ℕ) (sol : List (Fin n → ℚ)) (time_vec : List ℚ) :
    ∃ lossVec lossTotal,
      total_out_loss sol time_vec true = Sum.inl lossVec ∧
      total_out_loss sol time_vec false = Sum.inr lossTotal ∧
      lossTotal = simps (sol.map (fun r => ∑ j, r j)) time_vec ∧
      lossTotal = ∑ j, lossVec j := by
  refine ⟨_, _, rfl, rfl, ?_, rfl⟩
  exact (simps_map_sum sol time_vec (fun j r => r j) Finset.univ).symm

end SimEngine
